import Mathlib

/-!
Verification of the backup lifecycle controller of the docker volume
backup/restore tool.  The definitions below are a shallow embedding of the
Rust sources: the retention policy engine and date codec from
src/backup.rs and src/utility/configs/retention_policy.rs, the
per-volume orchestration loop of run_backup (src/backup.rs), the restore
replacement step (src/restore.rs), the deletion loop of
remove_old_backups (src/backup.rs), and the archive combination step
(src/utility/compression.rs and src/backup/utility/compression.rs).

Machine integers (usize) are modelled as Nat, with explicit two-complement
wrapping where the source performs an integer cast.  Timestamps
(chrono DateTime, an instant) are modelled as Int seconds since the Unix
epoch; the civil fields of a timestamp are the BackupDate structure.
-/

namespace DVB

/-! ## Date codec

Models the naming convention of src/backup.rs: run_backup builds names
as the string append of "backup-", the timestamp formatted with the
chrono pattern %Y-%m-%dT%H-%M-%S, and ".tar.gz" (lines 105-107), and
parse_backup_date (lines 253-267) strips the two markers and parses the
middle with the same chrono pattern, interpreting the fields as UTC.
-/

/-- Civil fields of a timestamp, the payload of the naming convention. -/
structure BackupDate where
  year : Nat
  month : Nat
  day : Nat
  hour : Nat
  minute : Nat
  second : Nat
deriving DecidableEq, Repr

/-- Gregorian leap year test, as used by chrono when validating a parsed date. -/
def isLeapYear (y : Nat) : Bool :=
  (y % 4 == 0 && y % 100 != 0) || y % 400 == 0

/-- Days of a month in the proleptic Gregorian calendar. -/
def daysInMonth (y m : Nat) : Nat :=
  if m == 2 then (if isLeapYear y then 29 else 28)
  else if m == 4 || m == 6 || m == 9 || m == 11 then 30
  else 31

/-- A calendar-valid timestamp in the range the fixed-width naming
convention can represent (four digit year, two digits elsewhere). -/
def isValidDate (d : BackupDate) : Bool :=
  1 ≤ d.year && d.year ≤ 9999 &&
  1 ≤ d.month && d.month ≤ 12 &&
  1 ≤ d.day && d.day ≤ daysInMonth d.year d.month &&
  d.hour ≤ 23 && d.minute ≤ 59 && d.second ≤ 59

/-- Seconds since the Unix epoch of a civil timestamp (the instant a
chrono DateTime of Utc with these fields denotes), via the standard
civil-from-days computation. -/
def toEpoch (b : BackupDate) : Int :=
  let y : Nat := if b.month ≤ 2 then b.year - 1 else b.year
  let era : Nat := y / 400
  let yoe : Nat := y % 400
  let mp : Nat := (b.month + 9) % 12
  let doy : Nat := (153 * mp + 2) / 5 + b.day - 1
  let doe : Nat := yoe * 365 + yoe / 4 - yoe / 100 + doy
  ((era * 146097 + doe : Nat) : Int) * 86400 - 719468 * 86400
    + (b.hour * 3600 + b.minute * 60 + b.second : Nat)

/-- Numeric value of an ASCII digit character. -/
def digitVal (c : Char) : Nat := c.toNat - 48

/-- Two-digit zero-padded rendering, as chrono emits for %m %d %H %M %S. -/
def pad2 (n : Nat) : List Char :=
  [Nat.digitChar (n / 10 % 10), Nat.digitChar (n % 10)]

/-- Four-digit zero-padded rendering, as chrono emits for %Y in 1..9999. -/
def pad4 (n : Nat) : List Char :=
  [Nat.digitChar (n / 1000 % 10), Nat.digitChar (n / 100 % 10),
   Nat.digitChar (n / 10 % 10), Nat.digitChar (n % 10)]

/-- The chrono format %Y-%m-%dT%H-%M-%S applied to a timestamp
(src/backup.rs line 106). -/
def formatBackupTimestamp (d : BackupDate) : String :=
  ⟨pad4 d.year ++ '-' :: (pad2 d.month ++ '-' :: (pad2 d.day ++
   'T' :: (pad2 d.hour ++ '-' :: (pad2 d.minute ++ '-' :: pad2 d.second))))⟩

/-- The combined artifact name run_backup produces (src/backup.rs line 107). -/
def backup_file_name (d : BackupDate) : String :=
  "backup-" ++ formatBackupTimestamp d ++ ".tar.gz"

/-- Model of NaiveDateTime parse_from_str with pattern %Y-%m-%dT%H-%M-%S
on the zero-padded fixed-width shape the formatter emits: nineteen
characters, digit fields separated by literal markers, fields validated
against the calendar. -/
def parseDateTimeChars : List Char → Option BackupDate
  | [y1, y2, y3, y4, sep1, m1, m2, sep2, d1, d2, sepT,
     h1, h2, sep3, n1, n2, sep4, s1, s2] =>
    if sep1 == '-' && sep2 == '-' && sepT == 'T' && sep3 == '-' && sep4 == '-' &&
       y1.isDigit && y2.isDigit && y3.isDigit && y4.isDigit &&
       m1.isDigit && m2.isDigit && d1.isDigit && d2.isDigit &&
       h1.isDigit && h2.isDigit && n1.isDigit && n2.isDigit &&
       s1.isDigit && s2.isDigit then
      let dt : BackupDate :=
        ⟨1000 * digitVal y1 + 100 * digitVal y2 + 10 * digitVal y3 + digitVal y4,
         10 * digitVal m1 + digitVal m2,
         10 * digitVal d1 + digitVal d2,
         10 * digitVal h1 + digitVal h2,
         10 * digitVal n1 + digitVal n2,
         10 * digitVal s1 + digitVal s2⟩
      if isValidDate dt then some dt else none
    else none
  | _ => none

/-- parse_backup_date of src/backup.rs lines 253-267: require the
"backup-" marker at the front and ".tar.gz" at the back, slice them off,
parse the middle.  Returns the civil fields of the parsed UTC datetime. -/
def parse_backup_date (backup : String) : Option BackupDate :=
  let cs := backup.data
  if cs.take 7 == "backup-".data && cs.drop (cs.length - 7) == ".tar.gz".data then
    parseDateTimeChars ((cs.take (cs.length - 7)).drop 7)
  else none

/-- The instant (epoch seconds) parse_backup_date yields, used by the
retention engine for age comparisons and sorting. -/
def parseBackupEpoch (backup : String) : Option Int :=
  (parse_backup_date backup).map toEpoch

/-! ## Retention policy -/

/-- usize::MAX on the 64-bit targets this container image runs on. -/
def USIZE_MAX : Nat := 2 ^ 64 - 1

/-- RetentionPolicy of src/utility/configs/retention_policy.rs: count is
the maximum number of artifacts to retain, period the age bound in days.
Both are usize in the source, modelled as Nat. -/
structure RetentionPolicy where
  count : Nat
  period : Nat

/-- new_no_delete (retention_policy.rs lines 31-33): both fields
usize::MAX.  new_from_env (lines 24-29) produces the same values when
the two environment variables are unset, so this is also the default
policy of the claim set. -/
def RetentionPolicy.new_no_delete : RetentionPolicy :=
  ⟨USIZE_MAX, USIZE_MAX⟩

/-- The two-complement cast the source performs in
Duration::days(retention.period as i64) at src/backup.rs line 201:
a usize reinterpreted as a signed 64-bit integer. -/
def usizeToI64 (n : Nat) : Int :=
  if n % 2 ^ 64 < 2 ^ 63 then ((n % 2 ^ 64 : Nat) : Int)
  else ((n % 2 ^ 64 : Nat) : Int) - 2 ^ 64

/-! ## Retention engine (filter_backups_to_delete, src/backup.rs 199-237) -/

/-- The cutoff instant now - Duration::days(period as i64), in epoch
seconds (src/backup.rs lines 200-201 and the comparison on line 209). -/
def survivorCutoff (retention : RetentionPolicy) (now : Int) : Int :=
  now - usizeToI64 retention.period * 86400

/-- Lines 204-206: pair every parseable artifact name with its date,
dropping unparseable names. -/
def backupsWithDates (backups : List String) : List (String × Int) :=
  backups.filterMap (fun b => (parseBackupEpoch b).map (fun d => (b, d)))

/-- Line 209: keep only artifacts strictly newer than the cutoff. -/
def survivorPool (backups : List String) (retention : RetentionPolicy)
    (now : Int) : List (String × Int) :=
  (backupsWithDates backups).filter (fun bd => decide (survivorCutoff retention now < bd.2))

/-- The descending-by-date order of the sort on line 212. -/
def dateDesc (a b : String × Int) : Prop := b.2 ≤ a.2

instance : DecidableRel dateDesc := fun a b => Int.decLe b.2 a.2

instance : IsTotal (String × Int) dateDesc := ⟨fun a b => le_total b.2 a.2⟩

instance : IsTrans (String × Int) dateDesc := ⟨fun _ _ _ h1 h2 => le_trans h2 h1⟩

/-- The ceiling division the source computes with f64 arithmetic on line
219: ceil of the pool length over the open retention slots. -/
def ceilDiv (a b : Nat) : Nat := (a + b - 1) / b

/-- One pass of the scan on lines 220-227: walk the pool with its index,
retain index zero and afterwards any element at least keepInterval
positions past the last retained index. -/
def retentionPass (keepInterval : Nat) :
    List (String × Int) → Nat → Nat → Finset String → Finset String
  | [], _, _, ret => ret
  | bd :: rest, i, lastKeep, ret =>
    if i == 0 || keepInterval ≤ i - lastKeep then
      retentionPass keepInterval rest (i + 1) i (insert bd.1 ret)
    else
      retentionPass keepInterval rest (i + 1) lastKeep ret

/-- The while loop of lines 218-231, indexed by fuel.  Each iteration
recomputes the interval from the current pool and open slots, runs one
pass, removes the retained names from the pool, and stops on an empty
pool or a filled retained set.  filter_backups_to_delete runs it with
fuel pool.length + 1, which the termination theorem shows is enough. -/
def retentionLoop (count : Nat) :
    Nat → List (String × Int) → Finset String → Finset String
  | 0, _, ret => ret
  | fuel + 1, pool, ret =>
    if ret.card < count then
      let keepInterval := ceilDiv pool.length (count - ret.card)
      let ret2 := retentionPass keepInterval pool 0 0 ret
      let pool2 := pool.filter (fun bd => decide (bd.1 ∉ ret2))
      if pool2.isEmpty then ret2 else retentionLoop count fuel pool2 ret2
    else ret

/-- The final retained name set of one engine run (lines 215-231). -/
def retainedBackups (backups : List String) (retention : RetentionPolicy)
    (now : Int) : Finset String :=
  let sorted := List.insertionSort dateDesc (survivorPool backups retention now)
  retentionLoop retention.count (sorted.length + 1) sorted ∅

/-- filter_backups_to_delete (src/backup.rs lines 199-237): every input
name whose string is not in the retained set is returned for deletion
(lines 234-236). -/
def filter_backups_to_delete (backups : List String)
    (retention : RetentionPolicy) (now : Int) : List String :=
  backups.filter (fun b => decide (b ∉ retainedBackups backups retention now))

/-! ## Properties of the retention engine -/

theorem le_ceilDiv_mul (a b : Nat) (hb : 0 < b) : a ≤ ceilDiv a b * b := by
  unfold ceilDiv
  generalize hq : (a + b - 1) / b = q
  have hdm := Nat.div_add_mod (a + b - 1) b
  rw [hq] at hdm
  have hmod : (a + b - 1) % b < b := Nat.mod_lt _ hb
  have hc : q * b = b * q := Nat.mul_comm q b
  omega

theorem ceilDiv_pos (a b : Nat) (hb : 0 < b) (ha : 1 ≤ a) : 1 ≤ ceilDiv a b := by
  unfold ceilDiv
  rw [Nat.le_div_iff_mul_le hb]
  omega

theorem length_filter_add_length_filter_not {α : Type} (p : α → Bool) (l : List α) :
    (l.filter p).length + (l.filter (fun a => !(p a))).length = l.length := by
  induction l with
  | nil => rfl
  | cons a t ih => cases hpa : p a <;> simp [List.filter_cons, hpa] <;> omega

theorem length_filter_mem_eq_card (pool : List (String × Int)) (S : Finset String)
    (hnd : (pool.map Prod.fst).Nodup) (hS : S ⊆ (pool.map Prod.fst).toFinset) :
    (pool.filter (fun bd => decide (bd.1 ∈ S))).length = S.card := by
  have h1 : (pool.map Prod.fst).filter (fun a => decide (a ∈ S))
      = (pool.filter (fun bd => decide (bd.1 ∈ S))).map Prod.fst := by
    rw [List.filter_map]
    rfl
  have h2 : ((pool.map Prod.fst).filter (fun a => decide (a ∈ S))).Nodup :=
    hnd.filter _
  have h3 : ((pool.map Prod.fst).filter (fun a => decide (a ∈ S))).toFinset.card
      = ((pool.map Prod.fst).filter (fun a => decide (a ∈ S))).length :=
    List.toFinset_card_of_nodup h2
  have h4 : ((pool.map Prod.fst).filter (fun a => decide (a ∈ S))).toFinset
      = (pool.map Prod.fst).toFinset.filter (fun a => decide (a ∈ S)) :=
    List.toFinset_filter _ _
  have h5 : (pool.map Prod.fst).toFinset.filter (fun a => decide (a ∈ S))
      = (pool.map Prod.fst).toFinset ∩ S := by
    apply Finset.ext
    intro x
    simp only [Finset.mem_filter, Finset.mem_inter, decide_eq_true_eq]
  have h6 : (pool.map Prod.fst).toFinset ∩ S = S := by
    apply Finset.ext
    intro x
    constructor
    · exact fun h => (Finset.mem_inter.mp h).2
    · exact fun h => Finset.mem_inter.mpr ⟨hS h, h⟩
  calc (pool.filter (fun bd => decide (bd.1 ∈ S))).length
      = ((pool.filter (fun bd => decide (bd.1 ∈ S))).map Prod.fst).length :=
        (List.length_map _ _).symm
    _ = ((pool.map Prod.fst).filter (fun a => decide (a ∈ S))).length := by rw [h1]
    _ = ((pool.map Prod.fst).filter (fun a => decide (a ∈ S))).toFinset.card := h3.symm
    _ = S.card := by rw [h4, h5, h6]

theorem retentionPass_superset (k : Nat) :
    ∀ (rest : List (String × Int)) (i lastKeep : Nat) (ret : Finset String),
      ret ⊆ retentionPass k rest i lastKeep ret := by
  intro rest
  induction rest with
  | nil => intro i lk ret; simp [retentionPass]
  | cons bd rest ih =>
    intro i lk ret
    rw [retentionPass]
    split
    · exact fun x hx => ih (i + 1) i (insert bd.1 ret) (Finset.mem_insert_of_mem hx)
    · exact ih (i + 1) lk ret

theorem retentionPass_subset (k : Nat) :
    ∀ (rest : List (String × Int)) (i lastKeep : Nat) (ret : Finset String),
      retentionPass k rest i lastKeep ret ⊆ ret ∪ (rest.map Prod.fst).toFinset := by
  intro rest
  induction rest with
  | nil => intro i lk ret; simp [retentionPass]
  | cons bd rest ih =>
    intro i lk ret
    rw [retentionPass]
    split
    · intro x hx
      rcases Finset.mem_union.mp (ih (i + 1) i (insert bd.1 ret) hx) with h | h
      · rcases Finset.mem_insert.mp h with h | h
        · subst h; simp
        · exact Finset.mem_union.mpr (Or.inl h)
      · simp only [List.map_cons, List.toFinset_cons, Finset.mem_union, Finset.mem_insert]
        exact Or.inr (Or.inr h)
    · intro x hx
      rcases Finset.mem_union.mp (ih (i + 1) lk ret hx) with h | h
      · exact Finset.mem_union.mpr (Or.inl h)
      · simp only [List.map_cons, List.toFinset_cons, Finset.mem_union, Finset.mem_insert]
        exact Or.inr (Or.inr h)

theorem retentionPass_head_mem (k : Nat) (bd : String × Int)
    (rest : List (String × Int)) (lastKeep : Nat) (ret : Finset String) :
    bd.1 ∈ retentionPass k (bd :: rest) 0 lastKeep ret := by
  rw [retentionPass]
  simp only [beq_self_eq_true, Bool.true_or, if_true]
  exact retentionPass_superset k rest 1 0 (insert bd.1 ret) (Finset.mem_insert_self _ _)

theorem retentionPass_card_le (k : Nat) (hk : 1 ≤ k) :
    ∀ (rest : List (String × Int)) (i lastKeep : Nat) (ret : Finset String),
      lastKeep ≤ i →
      (retentionPass k rest i lastKeep ret).card ≤
        ret.card + (if i = 0 then 1 else 0) + (i + rest.length - 1 - lastKeep) / k := by
  intro rest
  induction rest with
  | nil =>
    intro i lk ret _
    rw [retentionPass]
    split <;> exact le_trans (Nat.le_add_right _ _) (Nat.le_add_right _ _)
  | cons bd rest ih =>
    intro i lk ret hlk
    rw [retentionPass]
    split
    · rename_i hcond
      simp only [Bool.or_eq_true, beq_iff_eq, decide_eq_true_eq] at hcond
      have hins : (insert bd.1 ret).card ≤ ret.card + 1 := Finset.card_insert_le _ _
      have h2 := ih (i + 1) i (insert bd.1 ret) (Nat.le_succ i)
      have h3 : (i + 1 + rest.length - 1 - i) / k = rest.length / k := by
        congr 1; omega
      rw [h3] at h2
      simp only [if_neg (by omega : ¬ i + 1 = 0)] at h2
      rcases Nat.eq_zero_or_pos i with hi | hi
      · subst hi
        have : lk = 0 := Nat.le_zero.mp hlk
        subst this
        simp only [reduceIte, List.length_cons]
        have h4 : (0 + (rest.length + 1) - 1 - 0) / k = rest.length / k := by congr 1; omega
        rw [h4]
        generalize rest.length / k = q at h2 ⊢
        omega
      · have hcond2 : k ≤ i - lk := by rcases hcond with h | h <;> omega
        have hne : ¬ i = 0 := by omega
        rw [if_neg hne]
        simp only [List.length_cons]
        have h5 : rest.length + k ≤ i + (rest.length + 1) - 1 - lk := by omega
        have h6 : (rest.length + k) / k = rest.length / k + 1 :=
          Nat.add_div_right _ (by omega)
        have hdiv : rest.length / k + 1 ≤ (i + (rest.length + 1) - 1 - lk) / k :=
          h6 ▸ Nat.div_le_div_right h5
        generalize rest.length / k = q at h2 hdiv
        generalize (i + (rest.length + 1) - 1 - lk) / k = r at hdiv ⊢
        omega
    · rename_i hcond
      have h2 := ih (i + 1) lk ret (by omega)
      simp only [if_neg (by omega : ¬ i + 1 = 0)] at h2
      have h3 : (i + 1 + rest.length - 1 - lk) = (i + (bd :: rest).length - 1 - lk) := by
        simp only [List.length_cons]; omega
      rw [h3] at h2
      generalize (i + (bd :: rest).length - 1 - lk) / k = q at h2 ⊢
      omega



theorem retentionLoop_superset (count : Nat) :
    ∀ (fuel : Nat) (pool : List (String × Int)) (ret : Finset String),
      ret ⊆ retentionLoop count fuel pool ret := by
  intro fuel
  induction fuel with
  | zero => intro pool ret; rw [retentionLoop]
  | succ fuel ih =>
    intro pool ret
    rw [retentionLoop]
    split
    · dsimp only
      split
      · exact retentionPass_superset _ _ _ _ _
      · exact subset_trans (retentionPass_superset _ _ _ _ _) (ih _ _)
    · exact subset_rfl

theorem retentionLoop_subset (count : Nat) :
    ∀ (fuel : Nat) (pool : List (String × Int)) (ret : Finset String),
      retentionLoop count fuel pool ret ⊆ ret ∪ (pool.map Prod.fst).toFinset := by
  intro fuel
  induction fuel with
  | zero => intro pool ret; rw [retentionLoop]; exact Finset.subset_union_left
  | succ fuel ih =>
    intro pool ret
    rw [retentionLoop]
    split
    · dsimp only
      split
      · exact retentionPass_subset _ _ _ _ _
      · intro x hx
        have h1 := ih _ _ hx
        rcases Finset.mem_union.mp h1 with h | h
        · exact retentionPass_subset _ _ _ _ _ h
        · rw [List.mem_toFinset] at h
          have h2 : (List.filter (fun bd => decide (bd.1 ∉ retentionPass
              (ceilDiv pool.length (count - ret.card)) pool 0 0 ret)) pool).map Prod.fst
              |>.Sublist (pool.map Prod.fst) :=
            (List.filter_sublist pool).map Prod.fst
          have h3 := h2.subset h
          exact Finset.mem_union.mpr (Or.inr (List.mem_toFinset.mpr h3))
    · exact Finset.subset_union_left

theorem retentionLoop_card (count : Nat) :
    ∀ (fuel : Nat) (pool : List (String × Int)) (ret : Finset String),
      pool.length + 1 ≤ fuel →
      (pool.map Prod.fst).Nodup →
      (∀ bd ∈ pool, bd.1 ∉ ret) →
      ret.card ≤ count →
      (retentionLoop count fuel pool ret).card = min count (ret.card + pool.length) := by
  intro fuel
  induction fuel with
  | zero => intro pool ret hfuel; exact absurd hfuel (by omega)
  | succ fuel ih =>
    intro pool ret hfuel hnd hdisj hle
    rw [retentionLoop]
    by_cases hlt : ret.card < count
    · rw [if_pos hlt]
      dsimp only
      set k := ceilDiv pool.length (count - ret.card) with hk
      set ret2 := retentionPass k pool 0 0 ret with hret2
      set pool2 := pool.filter (fun bd => decide (bd.1 ∉ ret2)) with hpool2
      have hsup : ret ⊆ ret2 := retentionPass_superset k pool 0 0 ret
      have hsub : ret2 ⊆ ret ∪ (pool.map Prod.fst).toFinset :=
        retentionPass_subset k pool 0 0 ret
      set A := ret2 \ ret with hA
      have hAsub : A ⊆ (pool.map Prod.fst).toFinset := by
        intro x hx
        obtain ⟨h1, h2⟩ := Finset.mem_sdiff.mp hx
        rcases Finset.mem_union.mp (hsub h1) with h | h
        · exact absurd h h2
        · exact h
      have hcard2 : ret2.card = ret.card + A.card := by
        have h := Finset.card_sdiff_add_card_eq_card hsup
        rw [← hA] at h
        omega
      have hAle : A.card ≤ pool.length := by
        have h1 := Finset.card_le_card hAsub
        have h2 := List.toFinset_card_le (pool.map Prod.fst)
        rw [List.length_map] at h2
        omega
      have hbound : ret2.card ≤ count := by
        by_cases hp : pool = []
        · rw [hret2, hp]
          exact hle
        · have hL : 1 ≤ pool.length := List.length_pos.mpr hp
          have hk1 : 1 ≤ k := by rw [hk]; exact ceilDiv_pos _ _ (by omega) hL
          have hpass := retentionPass_card_le k hk1 pool 0 0 ret (le_refl 0)
          rw [if_pos rfl] at hpass
          rw [← hret2] at hpass
          have hmul := le_ceilDiv_mul pool.length (count - ret.card) (by omega)
          rw [← hk] at hmul
          have hdivlt : (0 + pool.length - 1 - 0) / k < count - ret.card := by
            rw [Nat.div_lt_iff_lt_mul (by omega : 0 < k)]
            have hc : (count - ret.card) * k = k * (count - ret.card) := Nat.mul_comm _ _
            omega
          generalize hq : (0 + pool.length - 1 - 0) / k = q at hpass hdivlt
          omega
      have hlen2 : pool2.length = pool.length - A.card := by
        have hpart := length_filter_add_length_filter_not
          (fun bd => decide (bd.1 ∈ ret2)) pool
        have hcongr : pool.filter (fun bd => !(decide (bd.1 ∈ ret2))) = pool2 := by
          rw [hpool2]
          apply List.filter_congr
          intro bd _
          simp [decide_not]
        rw [hcongr] at hpart
        have hin : (pool.filter (fun bd => decide (bd.1 ∈ ret2))).length = A.card := by
          have hcongr2 : pool.filter (fun bd => decide (bd.1 ∈ ret2))
              = pool.filter (fun bd => decide (bd.1 ∈ A)) := by
            apply List.filter_congr
            intro bd hbd
            have hd := hdisj bd hbd
            simp only [decide_eq_decide]
            rw [hA]
            constructor
            · intro h; exact Finset.mem_sdiff.mpr ⟨h, hd⟩
            · intro h; exact (Finset.mem_sdiff.mp h).1
          rw [hcongr2]
          exact length_filter_mem_eq_card pool A hnd hAsub
        omega
      split
      · rename_i hemp
        have h0 : pool2 = [] := by
          rwa [List.isEmpty_iff] at hemp
        have h0len : pool2.length = 0 := by rw [h0]; rfl
        omega
      · rename_i hemp
        have hpne : pool ≠ [] := by
          intro h
          apply hemp
          rw [hpool2, h]
          rfl
        have hA1 : 1 ≤ A.card := by
          obtain ⟨bd, rest, hbd⟩ := List.exists_cons_of_ne_nil hpne
          have hmem : bd.1 ∈ ret2 := by
            rw [hret2, hbd]
            exact retentionPass_head_mem k bd rest 0 ret
          have hnotr : bd.1 ∉ ret := hdisj bd (by rw [hbd]; exact List.mem_cons_self bd rest)
          have hmA : bd.1 ∈ A := Finset.mem_sdiff.mpr ⟨hmem, hnotr⟩
          exact Finset.card_pos.mpr ⟨bd.1, hmA⟩
        have hplen : 1 ≤ pool.length := List.length_pos.mpr hpne
        have hnd2 : (pool2.map Prod.fst).Nodup := by
          have hsubl : (pool2.map Prod.fst).Sublist (pool.map Prod.fst) := by
            rw [hpool2]
            exact (List.filter_sublist pool).map Prod.fst
          exact hnd.sublist hsubl
        have hdisj2 : ∀ bd ∈ pool2, bd.1 ∉ ret2 := by
          intro bd hbd
          rw [hpool2] at hbd
          exact of_decide_eq_true (List.mem_filter.mp hbd).2
        have hres := ih pool2 ret2 (by omega) hnd2 hdisj2 hbound
        rw [hres]
        omega
    · rw [if_neg hlt]
      omega

theorem length_filter_lt_of_mem {α : Type} (p : α → Bool) (l : List α) (x : α)
    (hx : x ∈ l) (hpx : p x = false) : (l.filter p).length < l.length := by
  induction l with
  | nil => cases hx
  | cons a t ih =>
    rcases List.mem_cons.mp hx with h | h2
    · subst h
      simp only [List.filter_cons, hpx, Bool.false_eq_true, if_false, List.length_cons]
      have := List.length_filter_le p t
      omega
    · cases hpa : p a
      · simp only [List.filter_cons, hpa, Bool.false_eq_true, if_false, List.length_cons]
        have := List.length_filter_le p t
        omega
      · simp only [List.filter_cons, hpa, if_true, List.length_cons]
        have := ih h2
        omega

theorem retentionLoop_fuel_eq (count : Nat) :
    ∀ (fuel1 fuel2 : Nat) (pool : List (String × Int)) (ret : Finset String),
      pool.length + 1 ≤ fuel1 → pool.length + 1 ≤ fuel2 →
      retentionLoop count fuel1 pool ret = retentionLoop count fuel2 pool ret := by
  intro fuel1
  induction fuel1 with
  | zero => intro fuel2 pool ret h1 _; exact absurd h1 (by omega)
  | succ f ih =>
    intro fuel2 pool ret h1 h2
    cases fuel2 with
    | zero => exact absurd h2 (by omega)
    | succ g =>
      rw [retentionLoop]
      rw [retentionLoop]
      by_cases hlt : ret.card < count
      · rw [if_pos hlt, if_pos hlt]
        dsimp only
        set k := ceilDiv pool.length (count - ret.card) with hk
        set ret2 := retentionPass k pool 0 0 ret with hret2
        set pool2 := pool.filter (fun bd => decide (bd.1 ∉ ret2)) with hpool2
        by_cases hemp : pool2.isEmpty = true
        · rw [if_pos hemp, if_pos hemp]
        · rw [if_neg hemp, if_neg hemp]
          have hpne : pool ≠ [] := fun h => hemp (by rw [hpool2, h]; rfl)
          obtain ⟨bd, rest, hbd⟩ := List.exists_cons_of_ne_nil hpne
          have hmem : bd.1 ∈ ret2 := by
            rw [hret2, hbd]
            exact retentionPass_head_mem k bd rest 0 ret
          have hlt2 : pool2.length < pool.length := by
            rw [hpool2]
            apply length_filter_lt_of_mem _ _ bd
            · rw [hbd]; exact List.mem_cons_self bd rest
            · simp [hmem]
          exact ih g pool2 ret2 (by omega) (by omega)
      · rw [if_neg hlt, if_neg hlt]

theorem backupsWithDates_names_sublist (l : List String) :
    ((backupsWithDates l).map Prod.fst).Sublist l := by
  induction l with
  | nil => exact List.Sublist.refl _
  | cons b t ih =>
    simp only [backupsWithDates, List.filterMap_cons] at *
    cases h : parseBackupEpoch b with
    | none => simp only [h, Option.map_none']; exact List.Sublist.cons b ih
    | some d =>
      simp only [h, Option.map_some', List.map_cons]
      exact List.Sublist.cons₂ b ih

theorem survivor_names_sublist (backups : List String) (retention : RetentionPolicy)
    (now : Int) :
    ((survivorPool backups retention now).map Prod.fst).Sublist backups :=
  ((List.filter_sublist _).map Prod.fst).trans (backupsWithDates_names_sublist backups)

theorem survivorPool_mem_parse {backups : List String} {retention : RetentionPolicy}
    {now : Int} {bd : String × Int} (h : bd ∈ survivorPool backups retention now) :
    parseBackupEpoch bd.1 = some bd.2 ∧ survivorCutoff retention now < bd.2 := by
  unfold survivorPool at h
  have h1 := List.mem_filter.mp h
  refine ⟨?_, of_decide_eq_true h1.2⟩
  have h2 := h1.1
  unfold backupsWithDates at h2
  obtain ⟨a, _, hfa⟩ := List.mem_filterMap.mp h2
  obtain ⟨d0, hd0, heq⟩ := Option.map_eq_some'.mp hfa
  cases heq
  exact hd0

theorem retainedBackups_eq (backups : List String) (retention : RetentionPolicy)
    (now : Int) :
    retainedBackups backups retention now
      = retentionLoop retention.count
          ((List.insertionSort dateDesc (survivorPool backups retention now)).length + 1)
          (List.insertionSort dateDesc (survivorPool backups retention now)) ∅ := rfl

/-- C10: the deletion list of filter_backups_to_delete is a subsequence of
the input list, every returned name occurs in the input, and no returned
name is in the retained set: the engine never selects a name it was not
given. -/
theorem backups_to_delete_sublist (backups : List String) (retention : RetentionPolicy)
    (now : Int) :
    (filter_backups_to_delete backups retention now).Sublist backups ∧
    ∀ b ∈ filter_backups_to_delete backups retention now,
      b ∈ backups ∧ b ∉ retainedBackups backups retention now := by
  constructor
  · exact List.filter_sublist backups
  · intro b hb
    have h := List.mem_filter.mp hb
    exact ⟨h.1, of_decide_eq_true h.2⟩

theorem backups_to_delete_sublist_witness :
    (filter_backups_to_delete ["backup-2026-10-10T00-00-00.tar.gz", "junk"]
        ⟨1, 30⟩ (toEpoch ⟨2026, 10, 12, 0, 0, 0⟩)).Sublist
      ["backup-2026-10-10T00-00-00.tar.gz", "junk"] ∧
    ("junk" ∈ (["backup-2026-10-10T00-00-00.tar.gz", "junk"] : List String) ∧
      "junk" ∉ retainedBackups ["backup-2026-10-10T00-00-00.tar.gz", "junk"]
        ⟨1, 30⟩ (toEpoch ⟨2026, 10, 12, 0, 0, 0⟩)) :=
  ⟨(backups_to_delete_sublist _ _ _).1,
   (backups_to_delete_sublist _ _ _).2 "junk" (by decide)⟩

/-- C9: the retain-and-remove while loop of filter_backups_to_delete
terminates for every input list and policy: running the loop with any
fuel at least pool length plus one returns the same retained set the
engine computes, because each pass over a non-empty pool retains its
head, which is then removed from the pool, and the loop exits on an
empty pool or a filled retained set. -/
theorem retention_loop_total (backups : List String) (retention : RetentionPolicy)
    (now : Int) (fuel : Nat)
    (h : (List.insertionSort dateDesc (survivorPool backups retention now)).length + 1 ≤ fuel) :
    retentionLoop retention.count fuel
        (List.insertionSort dateDesc (survivorPool backups retention now)) ∅
      = retainedBackups backups retention now := by
  rw [retainedBackups_eq]
  exact retentionLoop_fuel_eq retention.count fuel _ _ ∅ h (le_refl _)

theorem retention_loop_total_witness :
    retentionLoop 1 50
        (List.insertionSort dateDesc
          (survivorPool ["backup-2026-10-10T00-00-00.tar.gz"] ⟨1, 30⟩
            (toEpoch ⟨2026, 10, 12, 0, 0, 0⟩))) ∅
      = retainedBackups ["backup-2026-10-10T00-00-00.tar.gz"] ⟨1, 30⟩
          (toEpoch ⟨2026, 10, 12, 0, 0, 0⟩) :=
  retention_loop_total _ ⟨1, 30⟩ _ 50 (by decide)

/-- C2: over any duplicate-free artifact list (remote file names are
unique within a directory) and any policy with count k, the part of the
survivor pool the engine does not return for deletion has size
min k (size of the survivor pool). -/
theorem retained_survivor_count (backups : List String) (retention : RetentionPolicy)
    (now : Int) (hnd : backups.Nodup) :
    ((survivorPool backups retention now).filter
        (fun bd => decide (bd.1 ∉ filter_backups_to_delete backups retention now))).length
      = min retention.count (survivorPool backups retention now).length := by
  have hnd_pool : ((survivorPool backups retention now).map Prod.fst).Nodup :=
    hnd.sublist (survivor_names_sublist backups retention now)
  have hperm : (List.insertionSort dateDesc (survivorPool backups retention now)).Perm
      (survivorPool backups retention now) :=
    List.perm_insertionSort dateDesc (survivorPool backups retention now)
  have hnd_sorted :
      ((List.insertionSort dateDesc (survivorPool backups retention now)).map Prod.fst).Nodup :=
    ((hperm.map Prod.fst).symm).nodup hnd_pool
  have hsubS : retainedBackups backups retention now
      ⊆ ((survivorPool backups retention now).map Prod.fst).toFinset := by
    intro x hx
    rw [retainedBackups_eq] at hx
    have h := retentionLoop_subset retention.count _ _ _ hx
    rcases Finset.mem_union.mp h with h | h
    · cases h
    · rw [List.mem_toFinset] at h
      exact List.mem_toFinset.mpr ((hperm.map Prod.fst).subset h)
  have hpred : ∀ bd ∈ survivorPool backups retention now,
      (decide (bd.1 ∉ filter_backups_to_delete backups retention now))
        = (decide (bd.1 ∈ retainedBackups backups retention now)) := by
    intro bd hbd
    have hmem_backups : bd.1 ∈ backups :=
      (survivor_names_sublist backups retention now).subset
        (List.mem_map_of_mem Prod.fst hbd)
    simp only [decide_eq_decide]
    unfold filter_backups_to_delete
    rw [List.mem_filter]
    constructor
    · intro h
      by_contra hnot
      exact h ⟨hmem_backups, decide_eq_true hnot⟩
    · intro h hcontra
      exact (of_decide_eq_true hcontra.2) h
  rw [List.filter_congr hpred]
  rw [length_filter_mem_eq_card (survivorPool backups retention now)
    (retainedBackups backups retention now) hnd_pool hsubS]
  have hcard := retentionLoop_card retention.count
    ((List.insertionSort dateDesc (survivorPool backups retention now)).length + 1)
    (List.insertionSort dateDesc (survivorPool backups retention now)) ∅
    (le_refl _) hnd_sorted (by intro bd _; exact Finset.not_mem_empty bd.1)
    (Nat.zero_le _)
  rw [retainedBackups_eq, hcard, Finset.card_empty, Nat.zero_add, hperm.length_eq]

theorem retained_survivor_count_witness :
    ((survivorPool
        ["backup-2026-10-10T00-00-00.tar.gz", "backup-2026-10-08T00-00-00.tar.gz"]
        ⟨1, 30⟩ (toEpoch ⟨2026, 10, 12, 0, 0, 0⟩)).filter
        (fun bd => decide (bd.1 ∉ filter_backups_to_delete
          ["backup-2026-10-10T00-00-00.tar.gz", "backup-2026-10-08T00-00-00.tar.gz"]
          ⟨1, 30⟩ (toEpoch ⟨2026, 10, 12, 0, 0, 0⟩)))).length
      = min 1 (survivorPool
        ["backup-2026-10-10T00-00-00.tar.gz", "backup-2026-10-08T00-00-00.tar.gz"]
        ⟨1, 30⟩ (toEpoch ⟨2026, 10, 12, 0, 0, 0⟩)).length :=
  retained_survivor_count _ _ _ (by decide)

/-- C3: for any policy with count at least one, the most recent artifact
of the survivor pool (parseable, strictly newer than the cutoff, and
strictly newer than every other survivor) is never in the deletion set. -/
theorem newest_survivor_not_deleted (backups : List String) (retention : RetentionPolicy)
    (now : Int) (b : String) (d : Int)
    (hc : 1 ≤ retention.count)
    (hmem : (b, d) ∈ survivorPool backups retention now)
    (hmax : ∀ cd ∈ survivorPool backups retention now, cd.1 ≠ b → cd.2 < d) :
    b ∉ filter_backups_to_delete backups retention now := by
  intro hdel
  have h := List.mem_filter.mp hdel
  apply of_decide_eq_true h.2
  have hperm : (List.insertionSort dateDesc (survivorPool backups retention now)).Perm
      (survivorPool backups retention now) :=
    List.perm_insertionSort dateDesc (survivorPool backups retention now)
  have hmem_sorted : (b, d) ∈ List.insertionSort dateDesc (survivorPool backups retention now) :=
    hperm.mem_iff.mpr hmem
  have hne : List.insertionSort dateDesc (survivorPool backups retention now) ≠ [] := by
    intro h0
    rw [h0] at hmem_sorted
    cases hmem_sorted
  obtain ⟨hd, tl, hcons⟩ := List.exists_cons_of_ne_nil hne
  have hsort : (List.insertionSort dateDesc (survivorPool backups retention now)).Sorted dateDesc :=
    List.sorted_insertionSort dateDesc (survivorPool backups retention now)
  have hsort2 : List.Sorted dateDesc (hd :: tl) := hcons ▸ hsort
  have hhd_mem_pool : hd ∈ survivorPool backups retention now :=
    hperm.subset (by rw [hcons]; exact List.mem_cons_self hd tl)
  have hhd1 : hd.1 = b := by
    by_contra hne1
    have hlt := hmax hd hhd_mem_pool hne1
    rcases List.mem_cons.mp (hcons ▸ hmem_sorted) with heq | htl
    · rw [← heq] at hne1
      exact hne1 rfl
    · have hrel : dateDesc hd (b, d) := (List.sorted_cons.mp hsort2).1 (b, d) htl
      have hle : d ≤ hd.2 := hrel
      omega
  have hbret : hd.1 ∈ retainedBackups backups retention now := by
    rw [retainedBackups_eq, hcons]
    rw [retentionLoop]
    rw [if_pos (by rw [Finset.card_empty]; omega)]
    dsimp only
    have hpassmem : hd.1 ∈ retentionPass
        (ceilDiv (hd :: tl).length (retention.count - (∅ : Finset String).card))
        (hd :: tl) 0 0 ∅ :=
      retentionPass_head_mem _ hd tl 0 ∅
    split
    · exact hpassmem
    · exact retentionLoop_superset _ _ _ _ hpassmem
  rw [← hhd1]
  exact hbret

theorem newest_survivor_not_deleted_witness :
    "backup-2026-10-10T00-00-00.tar.gz" ∉ filter_backups_to_delete
      ["backup-2026-10-10T00-00-00.tar.gz", "backup-2026-10-08T00-00-00.tar.gz"]
      ⟨1, 30⟩ (toEpoch ⟨2026, 10, 12, 0, 0, 0⟩) :=
  newest_survivor_not_deleted _ _ _ _ (toEpoch ⟨2026, 10, 10, 0, 0, 0⟩)
    (by decide) (by decide) (by decide)

/-- C1 (code and documentation diverge): under the default policy, count
and period both usize::MAX, the cast (period as i64) in
Duration::days(retention.period as i64) wraps to minus one on 64-bit
targets, so the cutoff lies one day in the future and every parseable
artifact fails the age filter: the engine returns the whole input for
deletion instead of the documented never-delete behaviour. -/
theorem default_policy_deletes_recent_backup :
    filter_backups_to_delete ["backup-2024-01-01T00-00-00.tar.gz"]
        RetentionPolicy.new_no_delete (toEpoch ⟨2026, 10, 12, 0, 0, 0⟩)
      = ["backup-2024-01-01T00-00-00.tar.gz"] := by decide

theorem daysInMonth_le (y m : Nat) : daysInMonth y m ≤ 31 := by
  unfold daysInMonth
  split
  · split <;> omega
  · split <;> omega

theorem digitChar_mod_isDigit (n : Nat) : (Nat.digitChar (n % 10)).isDigit = true := by
  have h : n % 10 < 10 := Nat.mod_lt _ (by omega)
  generalize hg : n % 10 = m at h ⊢
  interval_cases m <;> decide

theorem digitVal_digitChar (n : Nat) : digitVal (Nat.digitChar (n % 10)) = n % 10 := by
  have h : n % 10 < 10 := Nat.mod_lt _ (by omega)
  generalize hg : n % 10 = m at h ⊢
  interval_cases m <;> decide

theorem parseDateTimeChars_pads (d : BackupDate) (hv : isValidDate d = true) :
    parseDateTimeChars (pad4 d.year ++ '-' :: (pad2 d.month ++ '-' :: (pad2 d.day ++
      'T' :: (pad2 d.hour ++ '-' :: (pad2 d.minute ++ '-' :: pad2 d.second))))) = some d := by
  obtain ⟨y, mo, dy, hh, mi, ss⟩ := d
  have hv' := hv
  simp only [isValidDate, Bool.and_eq_true, decide_eq_true_eq] at hv'
  have hy9 : y ≤ 9999 := by omega
  have hmo9 : mo ≤ 12 := by omega
  have hdy9 : dy ≤ 31 := by
    have hd := daysInMonth_le y mo
    omega
  have hhh9 : hh ≤ 23 := by omega
  have hmi9 : mi ≤ 59 := by omega
  have hss9 : ss ≤ 59 := by omega
  simp only [pad4, pad2, List.cons_append, List.nil_append]
  rw [parseDateTimeChars]
  simp only [digitChar_mod_isDigit, beq_self_eq_true, Bool.and_true, Bool.true_and,
    Bool.and_self, if_true, digitVal_digitChar]
  have hy : 1000 * (y / 1000 % 10) + 100 * (y / 100 % 10) + 10 * (y / 10 % 10) + y % 10
      = y := by omega
  have hmo : 10 * (mo / 10 % 10) + mo % 10 = mo := by omega
  have hdy : 10 * (dy / 10 % 10) + dy % 10 = dy := by omega
  have hhh : 10 * (hh / 10 % 10) + hh % 10 = hh := by omega
  have hmi : 10 * (mi / 10 % 10) + mi % 10 = mi := by omega
  have hss : 10 * (ss / 10 % 10) + ss % 10 = ss := by omega
  rw [hy, hmo, hdy, hhh, hmi, hss]
  rw [if_pos hv]

/-- C8: an artifact name produced by the naming convention of run_backup
for a representable civil timestamp parses back with parse_backup_date
to exactly the same timestamp, and parseBackupEpoch yields its instant. -/
theorem backup_name_roundtrip (d : BackupDate) (hv : isValidDate d = true) :
    parse_backup_date (backup_file_name d) = some d ∧
    parseBackupEpoch (backup_file_name d) = some (toEpoch d) := by
  obtain ⟨y, mo, dy, hh, mi, ss⟩ := d
  have h1 : parse_backup_date (backup_file_name ⟨y, mo, dy, hh, mi, ss⟩)
      = some ⟨y, mo, dy, hh, mi, ss⟩ := by
    calc parse_backup_date (backup_file_name ⟨y, mo, dy, hh, mi, ss⟩)
        = parseDateTimeChars (pad4 y ++ '-' :: (pad2 mo ++ '-' :: (pad2 dy ++
            'T' :: (pad2 hh ++ '-' :: (pad2 mi ++ '-' :: pad2 ss))))) := by rfl
      _ = some ⟨y, mo, dy, hh, mi, ss⟩ := parseDateTimeChars_pads ⟨y, mo, dy, hh, mi, ss⟩ hv
  refine ⟨h1, ?_⟩
  rw [parseBackupEpoch, h1]
  rfl

theorem backup_name_roundtrip_witness :
    parse_backup_date (backup_file_name ⟨2024, 1, 2, 3, 4, 5⟩)
        = some ⟨2024, 1, 2, 3, 4, 5⟩ ∧
    parseBackupEpoch (backup_file_name ⟨2024, 1, 2, 3, 4, 5⟩)
        = some (toEpoch ⟨2024, 1, 2, 3, 4, 5⟩) :=
  backup_name_roundtrip ⟨2024, 1, 2, 3, 4, 5⟩ (by decide)

/-! ## Per-volume backup orchestration (run_backup, src/backup.rs 93-102)

The collaborators (docker stop/start, the folder compressor) are modelled
as an environment of outcomes; the loop produces the trace of collaborator
invocations together with its Result. -/

/-- Observable collaborator invocations of the per-volume loop. -/
inductive BackupEvent where
  | stopCall (volume : String)
  | compressCall (volume : String)
  | startCall (handles : List String)
deriving DecidableEq, Repr

/-- Outcomes of stop_containers, compress_folder_to_tar and
start_containers for one run. -/
structure BackupEnv where
  stopResult : String → Except String (List String)
  compressResult : String → Except String Unit
  startResult : List String → Except String Unit

/-- The loop body of run_backup, src/backup.rs lines 98-101: a stop
failure propagates at once; the compression result is captured in a
local, start_containers is invoked on the returned handles regardless,
a start failure propagates first, and only then the captured compression
result. -/
def backupVolume (env : BackupEnv) (volume : String) :
    List BackupEvent × Except String Unit :=
  match env.stopResult volume with
  | .error e => ([.stopCall volume], .error e)
  | .ok handles =>
    let result := env.compressResult volume
    match env.startResult handles with
    | .error e2 => ([.stopCall volume, .compressCall volume, .startCall handles], .error e2)
    | .ok _ => ([.stopCall volume, .compressCall volume, .startCall handles], result)

/-- The for loop over discovered volumes, src/backup.rs lines 93-102:
the first failing volume aborts run_backup with its error. -/
def runBackupVolumes (env : BackupEnv) : List String → List BackupEvent × Except String Unit
  | [] => ([], .ok ())
  | v :: vs =>
    match (backupVolume env v).2 with
    | .error e => ((backupVolume env v).1, .error e)
    | .ok _ =>
      ((backupVolume env v).1 ++ (runBackupVolumes env vs).1, (runBackupVolumes env vs).2)

theorem backupVolume_start_error (env : BackupEnv) (v : String) (handles : List String)
    (e2 : String) (hstop : env.stopResult v = .ok handles)
    (hst : env.startResult handles = .error e2) :
    backupVolume env v
      = ([.stopCall v, .compressCall v, .startCall handles], .error e2) := by
  simp only [backupVolume, hstop, hst]

theorem backupVolume_start_ok (env : BackupEnv) (v : String) (handles : List String)
    (hstop : env.stopResult v = .ok handles)
    (hst : env.startResult handles = .ok ()) :
    backupVolume env v
      = ([.stopCall v, .compressCall v, .startCall handles], env.compressResult v) := by
  simp only [backupVolume, hstop, hst]

/-- C4: for a discovered volume whose stop succeeds and whose directory
compression fails, every earlier volume having completed, run_backup
still invokes start_containers on exactly the handle list stop returned
(the trace ends with that call), and the compression error is the one
propagated to the caller when the start call itself succeeds. -/
theorem run_backup_resumes_after_snapshot_failure
    (env : BackupEnv) (pre post : List String) (v : String)
    (handles : List String) (e : String)
    (hpre : ∀ u ∈ pre, (backupVolume env u).2 = Except.ok ())
    (hstop : env.stopResult v = .ok handles)
    (hcomp : env.compressResult v = .error e) :
    (∃ tr, (runBackupVolumes env (pre ++ v :: post)).1
        = tr ++ [.stopCall v, .compressCall v, .startCall handles]) ∧
    (env.startResult handles = .ok () →
      (runBackupVolumes env (pre ++ v :: post)).2 = .error e) := by
  induction pre with
  | nil =>
    simp only [List.nil_append]
    cases hst : env.startResult handles with
    | error e2 =>
      have hbv := backupVolume_start_error env v handles e2 hstop hst
      constructor
      · exact ⟨[], by simp [runBackupVolumes, hbv]⟩
      · intro hok
        exact Except.noConfusion hok
    | ok u =>
      cases u
      have hbv := backupVolume_start_ok env v handles hstop hst
      rw [hcomp] at hbv
      constructor
      · exact ⟨[], by simp [runBackupVolumes, hbv]⟩
      · intro _
        simp [runBackupVolumes, hbv]
  | cons u pre ih =>
    have hu : (backupVolume env u).2 = .ok () := hpre u (List.mem_cons_self u pre)
    obtain ⟨⟨tr0, htr⟩, hres⟩ := ih (fun w hw => hpre w (List.mem_cons_of_mem u hw))
    constructor
    · refine ⟨(backupVolume env u).1 ++ tr0, ?_⟩
      simp only [List.cons_append, runBackupVolumes, hu, List.append_eq, htr,
        List.append_assoc]
    · intro hok
      simp only [List.cons_append, runBackupVolumes, hu, List.append_eq]
      exact hres hok

/-- Collaborator outcomes of the sample run behind the C4 witness. -/
def sampleBackupEnv : BackupEnv :=
  ⟨fun _ => .ok ["c1", "c2"], fun _ => .error "disk full", fun _ => .ok ()⟩

theorem run_backup_resumes_witness :
    (∃ tr, (runBackupVolumes sampleBackupEnv ["vol1"]).1
        = tr ++ [.stopCall "vol1", .compressCall "vol1", .startCall ["c1", "c2"]]) ∧
    (sampleBackupEnv.startResult ["c1", "c2"] = .ok () →
      (runBackupVolumes sampleBackupEnv ["vol1"]).2 = .error "disk full") :=
  run_backup_resumes_after_snapshot_failure sampleBackupEnv [] [] "vol1" ["c1", "c2"]
    "disk full" (by simp) rfl rfl

/-! ## Restore replacement step (replace_volume_data_with_dir, src/restore.rs 148-172)

The collect_paths call feeding each of remove_items and move_items is
folded into the outcome of that step. -/

/-- Observable collaborator invocations of the replacement step. -/
inductive RestoreEvent where
  | stopCall
  | removeCall
  | moveCall
  | startCall (handles : List String)
deriving DecidableEq, Repr

/-- Outcomes of the collaborators of one replacement: stop_containers,
the mount existence test, collect_paths plus remove_items, collect_paths
plus move_items, and start_containers. -/
structure RestoreEnv where
  stopResult : Except String (List String)
  mountExists : Bool
  removeResult : Except String Unit
  moveResult : Except String Unit
  startResult : List String → Except String Unit

/-- replace_volume_data_with_dir, src/restore.rs lines 148-172: stop the
containers, fail fast when the mount path is missing, remove the current
volume data, move the staged data in, and only then restart the stopped
containers; every intermediate failure returns early. -/
def replace_volume_data_with_dir (env : RestoreEnv) (volume : String) :
    List RestoreEvent × Except String Unit :=
  match env.stopResult with
  | .error e => ([.stopCall], .error e)
  | .ok handles =>
    if env.mountExists then
      match env.removeResult with
      | .error e => ([.stopCall, .removeCall], .error e)
      | .ok _ =>
        match env.moveResult with
        | .error e => ([.stopCall, .removeCall, .moveCall], .error e)
        | .ok _ =>
          match env.startResult handles with
          | .error e => ([.stopCall, .removeCall, .moveCall, .startCall handles], .error e)
          | .ok _ => ([.stopCall, .removeCall, .moveCall, .startCall handles], .ok ())
    else ([.stopCall], .error ("Volume " ++ volume ++ " does not exist."))

/-- C5 counterexample: the stop succeeds and returns a handle, the mount
existence check fails, and the operation returns the error without any
start_containers invocation: the trace holds only the stop call. -/
theorem replace_volume_no_start_on_mount_failure :
    (replace_volume_data_with_dir
        ⟨.ok ["c1"], false, .ok (), .ok (), fun _ => .ok ()⟩ "data").1
      = [RestoreEvent.stopCall] ∧
    (replace_volume_data_with_dir
        ⟨.ok ["c1"], false, .ok (), .ok (), fun _ => .ok ()⟩ "data").2
      = .error "Volume data does not exist." := by
  constructor <;> rfl

/-- C5 (amended): when stop succeeds, start_containers is invoked, on
exactly the stopped handles, precisely when the mount check, the removal
and the move all succeed; when an intermediate step fails the error is
returned with the containers left stopped. -/
theorem replace_volume_start_iff (env : RestoreEnv) (volume : String)
    (handles : List String) (hstop : env.stopResult = .ok handles) :
    (RestoreEvent.startCall handles ∈ (replace_volume_data_with_dir env volume).1
      ↔ env.mountExists = true ∧ env.removeResult = .ok () ∧ env.moveResult = .ok ()) ∧
    (∀ h2, RestoreEvent.startCall h2 ∈ (replace_volume_data_with_dir env volume).1
      → h2 = handles) := by
  obtain ⟨stopR, mnt, remR, movR, staR⟩ := env
  simp only at hstop
  subst hstop
  cases mnt
  · simp [replace_volume_data_with_dir]
  · cases remR with
    | error e => simp [replace_volume_data_with_dir]
    | ok u =>
      cases u
      cases movR with
      | error e => simp [replace_volume_data_with_dir]
      | ok u =>
        cases u
        cases hs : staR handles with
        | error e =>
          constructor
          · simp [replace_volume_data_with_dir, hs]
          · intro h2 hmem
            simp [replace_volume_data_with_dir, hs] at hmem
            exact hmem
        | ok u =>
          cases u
          constructor
          · simp [replace_volume_data_with_dir, hs]
          · intro h2 hmem
            simp [replace_volume_data_with_dir, hs] at hmem
            exact hmem

theorem replace_volume_start_iff_witness :
    (RestoreEvent.startCall ["c1"] ∈ (replace_volume_data_with_dir
        ⟨.ok ["c1"], true, .ok (), .ok (), fun _ => .ok ()⟩ "data").1
      ↔ (⟨.ok ["c1"], true, .ok (), .ok (), fun _ => .ok ()⟩ : RestoreEnv).mountExists = true
          ∧ (⟨.ok ["c1"], true, .ok (), .ok (), fun _ => .ok ()⟩ : RestoreEnv).removeResult = .ok ()
          ∧ (⟨.ok ["c1"], true, .ok (), .ok (), fun _ => .ok ()⟩ : RestoreEnv).moveResult = .ok ()) ∧
    (∀ h2, RestoreEvent.startCall h2 ∈ (replace_volume_data_with_dir
        ⟨.ok ["c1"], true, .ok (), .ok (), fun _ => .ok ()⟩ "data").1 → h2 = ["c1"]) :=
  replace_volume_start_iff ⟨.ok ["c1"], true, .ok (), .ok (), fun _ => .ok ()⟩ "data" ["c1"] rfl

/-! ## Pruner deletion loop (remove_old_backups, src/backup.rs 176-178)

The transport collaborator delete_file is an outcome per name; the loop
returns the names actually attempted together with its Result. -/

/-- The for loop over the names selected for deletion: each delete is
followed by the question-mark operator, so the first failure returns at
once and later names are never attempted. -/
def deleteBackupsLoop (deleteResult : String → Except String Unit) :
    List String → List String × Except String Unit
  | [] => ([], .ok ())
  | n :: ns =>
    match deleteResult n with
    | .error e => ([n], .error e)
    | .ok _ =>
      (n :: (deleteBackupsLoop deleteResult ns).1, (deleteBackupsLoop deleteResult ns).2)

/-- C6 counterexample: two names selected for deletion, the first delete
fails, and the second name is never attempted: the attempted list stops
at the failing name, refuting the claim that remaining deletes are still
tried. -/
theorem delete_loop_stops_at_first_failure :
    deleteBackupsLoop (fun n => if n = "backup-a" then .error "network" else .ok ())
        ["backup-a", "backup-b"] = (["backup-a"], .error "network") ∧
    "backup-b" ∉ (deleteBackupsLoop
        (fun n => if n = "backup-a" then .error "network" else .ok ())
        ["backup-a", "backup-b"]).1 := by
  constructor
  · rfl
  · decide

/-- C6 (amended): the pruner attempts the selected names in order only up
to and including the first failing delete; that failure is reported as
the returned error and the remaining names are not attempted. -/
theorem delete_loop_attempts_until_first_failure
    (deleteResult : String → Except String Unit) (pre : List String) (n : String)
    (post : List String) (e : String)
    (hpre : ∀ m ∈ pre, deleteResult m = .ok ())
    (hn : deleteResult n = .error e) :
    deleteBackupsLoop deleteResult (pre ++ n :: post) = (pre ++ [n], .error e) := by
  induction pre with
  | nil => simp [deleteBackupsLoop, hn]
  | cons m pre ih =>
    have hm : deleteResult m = .ok () := hpre m (List.mem_cons_self m pre)
    have ih2 := ih (fun w hw => hpre w (List.mem_cons_of_mem m hw))
    simp [deleteBackupsLoop, hm, ih2]

theorem delete_loop_attempts_witness :
    deleteBackupsLoop (fun n => if n = "backup-b" then .error "denied" else .ok ())
        (["backup-a"] ++ "backup-b" :: ["backup-c"])
      = (["backup-a"] ++ ["backup-b"], .error "denied") :=
  delete_loop_attempts_until_first_failure _ ["backup-a"] "backup-b" ["backup-c"] "denied"
    (by intro m hm; rw [List.mem_singleton] at hm; subst hm; rfl) rfl

/-! ## Archive combination (compress_files_to_tar)

The file system is modelled as the finite set of existing paths.
File::create adds the output path, File::open demands the input path
exist, appending to the tar does not touch the file system. -/

namespace Utility

/-- The append loop of src/utility/compression.rs lines 54-57: open each
input (failing when absent) and fold it into the archive; the file
system is unchanged. -/
def appendFilesAux (fs : Finset String) : List String → Finset String × Except String Unit
  | [] => (fs, .ok ())
  | p :: ps => if p ∈ fs then appendFilesAux fs ps else (fs, .error ("open failed: " ++ p))

/-- compress_files_to_tar of src/utility/compression.rs lines 49-60, the
version run_backup uses: create the combined archive, fold every input
file in, and leave the inputs on disk. -/
def compress_files_to_tar (fs : Finset String) (files_paths : List String)
    (combined_path : String) : Finset String × Except String Unit :=
  appendFilesAux (insert combined_path fs) files_paths

end Utility

namespace Legacy

/-- The append loop of src/backup/utility/compression.rs lines 26-30:
after folding each input into the archive, fs::remove_file deletes it. -/
def appendFilesAux (fs : Finset String) : List String → Finset String × Except String Unit
  | [] => (fs, .ok ())
  | p :: ps =>
    if p ∈ fs then appendFilesAux (fs.erase p) ps
    else (fs, .error ("open failed: " ++ p))

/-- compress_files_to_tar of src/backup/utility/compression.rs lines
21-33, the historical variant: create the combined archive and remove
each consumed input as it is folded in. -/
def compress_files_to_tar (fs : Finset String) (files_paths : List String)
    (combined_path : String) : Finset String × Except String Unit :=
  appendFilesAux (insert combined_path fs) files_paths

end Legacy

theorem utility_appendFilesAux_fst (l : List String) :
    ∀ fs : Finset String, (Utility.appendFilesAux fs l).1 = fs := by
  induction l with
  | nil => intro fs; rfl
  | cons p ps ih =>
    intro fs
    rw [Utility.appendFilesAux]
    split
    · exact ih fs
    · rfl

theorem legacy_appendFilesAux_subset (l : List String) :
    ∀ fs : Finset String, (Legacy.appendFilesAux fs l).1 ⊆ fs := by
  induction l with
  | nil => intro fs; exact subset_rfl
  | cons p ps ih =>
    intro fs
    rw [Legacy.appendFilesAux]
    split
    · exact subset_trans (ih _) (Finset.erase_subset _ _)
    · exact subset_rfl

theorem legacy_appendFilesAux_not_mem (l : List String) :
    ∀ fs : Finset String, (Legacy.appendFilesAux fs l).2 = .ok () →
      ∀ p ∈ l, p ∉ (Legacy.appendFilesAux fs l).1 := by
  induction l with
  | nil => intro fs _ p hp; cases hp
  | cons q ps ih =>
    intro fs hok p hp
    rw [Legacy.appendFilesAux] at hok ⊢
    split at hok
    · rename_i hq
      rw [if_pos hq]
      rcases List.mem_cons.mp hp with heq | hp2
      · subst heq
        intro hmem
        exact (Finset.not_mem_erase p fs) (legacy_appendFilesAux_subset ps _ hmem)
      · exact ih (fs.erase q) hok p hp2
    · cases hok

/-- C7 counterexample: the compress_files_to_tar that run_backup calls
(src/utility/compression.rs) succeeds on an existing input archive and
leaves that input on disk, refuting the claim that consumed inputs no
longer exist after success. -/
theorem compress_files_keeps_inputs :
    (Utility.compress_files_to_tar {"/tmp/v1.tar.gz"} ["/tmp/v1.tar.gz"]
        "/tmp/backup-combined.tar.gz").2 = .ok () ∧
    "/tmp/v1.tar.gz" ∈ (Utility.compress_files_to_tar {"/tmp/v1.tar.gz"}
        ["/tmp/v1.tar.gz"] "/tmp/backup-combined.tar.gz").1 := by
  constructor
  · rfl
  · decide

/-- C7 (amended): the removal of each consumed input holds for the
historical variant (src/backup/utility/compression.rs): when it
succeeds, none of the input files still exists.  The utility-module
version that run_backup uses instead keeps every existing path, and
run_backup deletes the whole temp directory later. -/
theorem compress_files_removal (fs : Finset String) (files_paths : List String)
    (combined_path : String)
    (hok : (Legacy.compress_files_to_tar fs files_paths combined_path).2 = .ok ()) :
    (∀ p ∈ files_paths, p ∉ (Legacy.compress_files_to_tar fs files_paths combined_path).1) ∧
    (∀ p ∈ fs, p ∈ (Utility.compress_files_to_tar fs files_paths combined_path).1) := by
  constructor
  · intro p hp
    exact legacy_appendFilesAux_not_mem files_paths (insert combined_path fs) hok p hp
  · intro p hp
    show p ∈ (Utility.appendFilesAux (insert combined_path fs) files_paths).1
    rw [utility_appendFilesAux_fst files_paths (insert combined_path fs)]
    exact Finset.mem_insert_of_mem hp

theorem compress_files_removal_witness :
    ("/tmp/v1.tar.gz" ∉ (Legacy.compress_files_to_tar {"/tmp/v1.tar.gz"}
        ["/tmp/v1.tar.gz"] "/tmp/backup-combined.tar.gz").1) ∧
    ("/tmp/v1.tar.gz" ∈ (Utility.compress_files_to_tar {"/tmp/v1.tar.gz"}
        ["/tmp/v1.tar.gz"] "/tmp/backup-combined.tar.gz").1) :=
  ⟨(compress_files_removal {"/tmp/v1.tar.gz"} ["/tmp/v1.tar.gz"]
      "/tmp/backup-combined.tar.gz" rfl).1 "/tmp/v1.tar.gz" (by decide),
   (compress_files_removal {"/tmp/v1.tar.gz"} ["/tmp/v1.tar.gz"]
      "/tmp/backup-combined.tar.gz" rfl).2 "/tmp/v1.tar.gz" (by decide)⟩

end DVB
